import Mathlib

/-!
Verification of the YouTube subtitle fragment loader.

The development embeds the three components of `llm_fragments_youtube.py`:
* `_clean_vtt_content` (the VTT subtitle normalizer),
* `_parse_argument` (the argument grammar, on top of a model of Python's
  `urllib.parse.urlparse` / `parse_qs`),
* `youtube_loader` (the orchestrator, with the external `yt-dlp` fetcher
  abstracted as a function parameter).

Python strings are modeled as `List Char` internally, with `String` at the
boundaries.  Whitespace and digit classes are modeled for their ASCII
subsets; the inputs relevant to the claims contain only ASCII text.
-/

/-! ## Python string primitives -/

/-- Whitespace stripped by Python `str.strip()` (ASCII subset). -/
def pySpace (c : Char) : Bool :=
  c = ' ' || c = '\t' || c = '\n' || c = '\r' || c = '\x0b' || c = '\x0c'

/-- Python `str.strip()`. -/
def trimChars (cs : List Char) : List Char :=
  ((cs.dropWhile pySpace).reverse.dropWhile pySpace).reverse

/-- Python `str.split(sep)` for a one-character separator. -/
def splitChar (sep : Char) : List Char → List (List Char)
  | [] => [[]]
  | c :: rest =>
    match splitChar sep rest with
    | [] => [[c]]
    | g :: gs => if c = sep then [] :: g :: gs else (c :: g) :: gs

/-- Python `sep.join(...)` for a one-character separator. -/
def joinChar (sep : Char) : List (List Char) → List Char
  | [] => []
  | [g] => g
  | g :: gs => g ++ sep :: joinChar sep gs

/-- Split at the first occurrence of `sep` (Python `str.split(sep, 1)` when it
finds the separator): the characters strictly before it and strictly after
it.  `none` when `sep` does not occur. -/
def splitFirst (sep : Char) : List Char → Option (List Char × List Char)
  | [] => none
  | c :: rest =>
    if c = sep then some ([], rest)
    else (splitFirst sep rest).map (fun p => (c :: p.1, p.2))

/-- Python `pat in s` substring test. -/
def listContains (pat : List Char) : List Char → Bool
  | [] => pat.isEmpty
  | c :: rest => pat.isPrefixOf (c :: rest) || listContains pat rest

/-- Python `str.isdigit()` (ASCII decimal digits; Python also accepts other
Unicode digit categories, which do not occur in the inputs considered). -/
def pyIsDigit (cs : List Char) : Bool :=
  !cs.isEmpty && cs.all Char.isDigit

/-! ## The VTT normalizer `_clean_vtt_content` -/

/-- One pass of Python `re.sub(r"<[^>]+>", "", line)`.  The regex matches at a
`'<'` exactly when the next `'>'` lies at distance at least two (the body
`[^>]+` is non-empty and cannot contain `'>'`), the match spans up to that
`'>'`, and scanning resumes after the removed span; any unmatched character is
kept.  `fuel` bounds the recursion; it is always invoked with
`fuel = cs.length`, which suffices because every step consumes at least one
character. -/
def subTags : Nat → List Char → List Char
  | 0, cs => cs
  | _, [] => []
  | fuel + 1, c :: rest =>
    if c = '<' then
      match splitFirst '>' rest with
      | some (gap, after) =>
        if gap.isEmpty then c :: subTags fuel rest else subTags fuel after
      | none => c :: subTags fuel rest
    else c :: subTags fuel rest

/-- `re.sub(r"<[^>]+>", "", line)`. -/
def stripTags (cs : List Char) : List Char := subTags cs.length cs

/-- Python `re.match(r"(\d{2}:\d{2}:\d{2})", line)`: the first eight
characters must be digit, digit, `':'`, digit, digit, `':'`, digit, digit;
the match, when it exists, is those eight characters. -/
def tsMatch : List Char → Option (List Char)
  | d1 :: d2 :: c1 :: d3 :: d4 :: c2 :: d5 :: d6 :: _ =>
    if d1.isDigit && d2.isDigit && c1 = ':' && d3.isDigit && d4.isDigit
        && c2 = ':' && d5.isDigit && d6.isDigit then
      some [d1, d2, c1, d3, d4, c2, d5, d6]
    else none
  | _ => none

/-- Python `int(...)` on a string of decimal digits. -/
def digitsVal (ds : List Char) : Nat :=
  ds.foldl (fun a c => a * 10 + (c.toNat - 48)) 0

/-- Python `int(current_timestamp.split(":")[1])`: the minute field of an
`HH:MM:SS` timestamp. -/
def tsMinuteVal (ts : List Char) : Nat :=
  digitsVal (((splitChar ':' ts).drop 1).headD [])

/-- One element of the `cleaned_lines` accumulator of `_clean_vtt_content`,
tagged with which of the two `append` sites produced it: the timestamp-marker
append or the caption-text append.  Joining the untagged strings with
newlines gives the function's output. -/
inductive Entry where
  | marker (s : List Char)
  | text (s : List Char)
deriving DecidableEq, Repr

/-- The characters of an entry. -/
def Entry.chars : Entry → List Char
  | .marker s => s
  | .text s => s

/-- The caption-text entries. -/
def textOf : Entry → Option (List Char)
  | .text s => some s
  | .marker _ => none

/-- The timestamp-marker entries. -/
def entryMarkers (es : List Entry) : List (List Char) :=
  es.filterMap fun e =>
    match e with
    | .marker s => some s
    | .text _ => none

/-- Loop state of `_clean_vtt_content`: the `cleaned_lines` accumulator,
`prev_text`, and `last_minute_recorded` (initialized to the `-1` sentinel).
The Python local `current_timestamp` is read only in the iteration that
assigns it, so it is not part of the cross-iteration state. -/
structure VttState where
  cleaned : List Entry
  prevText : Option (List Char)
  lastMinute : Int
deriving DecidableEq, Repr

/-- The initial loop state. -/
def initVtt : VttState := ⟨[], none, -1⟩

/-- The `"-->"` cue-timing separator. -/
def arrowPat : List Char := ['-', '-', '>']

/-- One iteration of the `while` loop of `_clean_vtt_content`, processing one
raw input line.  The branches mirror the source in order: skip blank and
header lines; cue-timing lines (emit a `[HH:MM:SS]` marker when the minute
changed); numeric cue identifiers; caption text (strip tags, then append
unless blank or equal to `prev_text`).  The Python locals `line` (the
stripped raw line) and `clean_line` (the tag-stripped text) are inlined; the
final Python guard `if line:` is always true on the last branch since blank
lines were already skipped. -/
def processLine (st : VttState) (rawLine : List Char) : VttState :=
  if (trimChars rawLine).isEmpty
      || "WEBVTT".toList.isPrefixOf (trimChars rawLine)
      || "Kind:".toList.isPrefixOf (trimChars rawLine)
      || "Language:".toList.isPrefixOf (trimChars rawLine) then
    st
  else if listContains arrowPat (trimChars rawLine) then
    match tsMatch (trimChars rawLine) with
    | some ts =>
      if (tsMinuteVal ts : Int) ≠ st.lastMinute then
        { st with cleaned := st.cleaned ++ [.marker ('[' :: ts ++ [']'])],
                  lastMinute := (tsMinuteVal ts : Int) }
      else st
    | none => st
  else if pyIsDigit (trimChars rawLine) then st
  else
    if !(trimChars (stripTags (trimChars rawLine))).isEmpty
        && some (stripTags (trimChars rawLine)) ≠ st.prevText then
      { st with cleaned := st.cleaned ++ [.text (stripTags (trimChars rawLine))],
                prevText := some (stripTags (trimChars rawLine)) }
    else st

/-- The whole `while` loop. -/
def processLines (ls : List (List Char)) (st : VttState) : VttState :=
  ls.foldl processLine st

/-- The `cleaned_lines` accumulator produced by `_clean_vtt_content` on a
given input. -/
def vttEntries (content : String) : List Entry :=
  (processLines (splitChar '\n' content.toList) initVtt).cleaned

/-- `_clean_vtt_content`: split the input on newlines, run the cleaning loop,
join the accumulator with newlines. -/
def clean_vtt_content (content : String) : String :=
  ⟨joinChar '\n' ((vttEntries content).map Entry.chars)⟩

/-- `cs` contains a substring matched by the regex `<[^>]+>`: some `'<'`
whose next `'>'` lies at distance at least two. -/
def hasTagSub : List Char → Bool
  | [] => false
  | c :: rest =>
    (if c = '<' then
       match splitFirst '>' rest with
       | some (gap, _) => !gap.isEmpty
       | none => false
     else false) || hasTagSub rest

/-! ## A model of `urllib.parse.urlparse` and `parse_qs`

Modeled after CPython's `urllib.parse` string grammar.  Omitted, with no
effect on the claims considered: the `ValueError` raised for unbalanced
IPv6 brackets or malformed non-ASCII netlocs (in `_parse_argument` every
non-hosting netloc leads to the same `ValueError` anyway), and multi-byte
UTF-8 percent-escape decoding (escapes `>= 0x80` are left untouched). -/

/-- The characters removed everywhere in a URL before parsing
(`_UNSAFE_URL_BYTES_TO_REMOVE`). -/
def isTabCrLf (c : Char) : Bool := c = '\t' || c = '\r' || c = '\n'

/-- WHATWG "C0 control or space", stripped from the front of a URL. -/
def isC0OrSpace (c : Char) : Bool := c ≤ ' '

/-- Characters allowed in a URL scheme after the first. -/
def isSchemeChar (c : Char) : Bool :=
  c.isAlpha || c.isDigit || c = '+' || c = '-' || c = '.'

/-- ASCII lowercasing, as applied to the scheme. -/
def pyLower (c : Char) : Char :=
  if 'A' ≤ c ∧ c ≤ 'Z' then Char.ofNat (c.toNat + 32) else c

/-- The result of `urlparse`. -/
structure UrlParts where
  scheme : List Char
  netloc : List Char
  path : List Char
  params : List Char
  query : List Char
  fragment : List Char
deriving DecidableEq, Repr

/-- `urllib.parse.urlsplit`: strip leading C0-control-or-space, remove
tab/CR/LF, split off a scheme (`[alpha][alnum+-.]*` before the first `':'`),
a `//`-introduced netloc (up to the first of `/?#`), a `#`-fragment, and a
`?`-query; the rest is the path. -/
def urlsplitModel (url0 : List Char) : UrlParts :=
  let url1 := url0.dropWhile isC0OrSpace
  let url2 := url1.filter (fun c => !isTabCrLf c)
  let schemeUrl :=
    match splitFirst ':' url2 with
    | some (before, after) =>
      match before with
      | [] => (([] : List Char), url2)
      | b :: bs =>
        if b.isAlpha && bs.all isSchemeChar then ((b :: bs).map pyLower, after)
        else ([], url2)
    | none => ([], url2)
  let scheme := schemeUrl.1
  let url3 := schemeUrl.2
  let netlocUrl :=
    if ['/', '/'].isPrefixOf url3 then
      let rest := url3.drop 2
      (rest.takeWhile (fun c => !(c = '/' || c = '?' || c = '#')),
       rest.dropWhile (fun c => !(c = '/' || c = '?' || c = '#')))
    else ([], url3)
  let netloc := netlocUrl.1
  let urlFrag :=
    match splitFirst '#' netlocUrl.2 with
    | some (a, b) => (a, b)
    | none => (netlocUrl.2, ([] : List Char))
  let pathQuery :=
    match splitFirst '?' urlFrag.1 with
    | some (a, b) => (a, b)
    | none => (urlFrag.1, ([] : List Char))
  ⟨scheme, netloc, pathQuery.1, [], pathQuery.2, urlFrag.2⟩

/-- The schemes for which `urlparse` separates path parameters
(`urllib.parse.uses_params`). -/
def usesParams : List (List Char) :=
  ["".toList, "ftp".toList, "hdl".toList, "prospero".toList, "http".toList,
   "imap".toList, "https".toList, "shttp".toList, "rtsp".toList,
   "rtspu".toList, "sip".toList, "sips".toList, "mms".toList, "sftp".toList,
   "tel".toList]

/-- `urllib.parse._splitparams`: split the path at the first `';'` of its
last `/`-segment (or of the whole path when it has no `'/'`). -/
def splitParams (path : List Char) : List Char × List Char :=
  if listContains ['/'] path then
    match splitFirst '/' path.reverse with
    | some (revLast, revPre) =>
      match splitFirst ';' revLast.reverse with
      | some (a, b) => (revPre.reverse ++ '/' :: a, b)
      | none => (path, [])
    | none => (path, [])
  else
    match splitFirst ';' path with
    | some (a, b) => (a, b)
    | none => (path, [])

/-- `urllib.parse.urlparse`. -/
def urlparseModel (url : List Char) : UrlParts :=
  let u := urlsplitModel url
  if usesParams.contains u.scheme && listContains [';'] u.path then
    let pp := splitParams u.path
    { u with path := pp.1, params := pp.2 }
  else u

/-- Value of a hexadecimal digit. -/
def hexVal (c : Char) : Option Nat :=
  if '0' ≤ c ∧ c ≤ '9' then some (c.toNat - 48)
  else if 'a' ≤ c ∧ c ≤ 'f' then some (c.toNat - 87)
  else if 'A' ≤ c ∧ c ≤ 'F' then some (c.toNat - 55)
  else none

/-- Percent-decoding of ASCII escapes (`%XX` with `XX < 80` hex); other
sequences are left untouched. -/
def pctDecode : List Char → List Char
  | '%' :: a :: b :: rest =>
    match hexVal a, hexVal b with
    | some x, some y =>
      if 16 * x + y < 128 then Char.ofNat (16 * x + y) :: pctDecode rest
      else '%' :: a :: b :: pctDecode rest
    | _, _ => '%' :: a :: b :: pctDecode rest
  | c :: rest => c :: pctDecode rest
  | [] => []

/-- `urllib.parse.unquote_plus`: `'+'` becomes a space, then percent-escapes
are decoded. -/
def unquotePlus (cs : List Char) : List Char :=
  pctDecode (cs.map (fun c => if c = '+' then ' ' else c))

/-- `urllib.parse.parse_qsl` with default options: split on `'&'`; drop
empty fields, fields without `'='`, and fields with an empty value; unquote
names and values. -/
def parseQsl (qs : List Char) : List (List Char × List Char) :=
  (splitChar '&' qs).filterMap fun field =>
    if field.isEmpty then none
    else
      match splitFirst '=' field with
      | none => none
      | some (n, v) =>
        if v.isEmpty then none else some (unquotePlus n, unquotePlus v)

/-- `parse_qs(query)["name"][0]` when the name is present: `parse_qs` groups
the `parse_qsl` pairs in encounter order, so index 0 is the first value
bound to the name. -/
def qpFirst (name : List Char) (qs : List Char) : Option (List Char) :=
  ((parseQsl qs).find? (fun p => p.1 == name)).map (·.2)

/-! ## The argument parser `_parse_argument` -/

/-- The language-prefix split at the top of `_parse_argument`: when `':'`
occurs in the argument and the argument does not start with `"http"`, the
part before the first `':'` is the language and the rest replaces the
argument. -/
def langSplit (argument : List Char) : Option (List Char) × List Char :=
  if listContains [':'] argument && !("http".toList.isPrefixOf argument) then
    match splitFirst ':' argument with
    | some (l, r) => (some l, r)
    | none => (none, argument)
  else (none, argument)

/-- `_parse_argument`: returns `(video_id, language)`, or the message of the
`ValueError` it raises. -/
def parse_argument (argument : String) : Except String (String × Option String) :=
  let split := langSplit argument.toList
  let language := split.1.map (fun l => (⟨l⟩ : String))
  let rest := split.2
  let u := urlparseModel rest
  if u.netloc = "www.youtube.com".toList ∨ u.netloc = "youtube.com".toList then
    match qpFirst "v".toList u.query with
    | some v => .ok (⟨v⟩, language)
    | none => .error ("Invalid YouTube URL: " ++ ⟨rest⟩)
  else if u.netloc = "youtu.be".toList then
    .ok (⟨(u.path.dropWhile (· = '/')).takeWhile (· ≠ '?')⟩, language)
  else if !u.netloc.isEmpty then
    .error ("Invalid YouTube URL: " ++ ⟨rest⟩)
  else
    .ok (⟨u.path.takeWhile (· ≠ '?')⟩, language)

/-! ## The loader `youtube_loader`

The external `yt-dlp` invocation is abstracted as a function from the fetch
mode (`--write-sub` vs `--write-auto-sub`), the video id, and the
`--sub-lang` value to an outcome: either a nonzero exit
(`subprocess.CalledProcessError`, carrying the diagnostic text used in the
error message) or the contents of the `.vtt` files left in the scratch
directory, in listing order. -/

/-- Which subtitle kind a `yt-dlp` run requests. -/
inductive FetchMode where
  | manual
  | auto
deriving DecidableEq, Repr

/-- Outcome of one external `yt-dlp` run. -/
inductive FetchOutcome where
  | failure (diag : String)
  | files (fs : List String)

/-- The output contract of the loader. -/
structure Fragment where
  content : String
  source : String
deriving DecidableEq, Repr

/-- The `--sub-lang` value passed to the fetcher: the language when truthy,
else the `"en"` default. -/
def effectiveLang : Option String → String
  | some l => if l = "" then "en" else l
  | none => "en"

/-- `youtube_loader` with the fetcher abstracted.  Errors are the messages
of the `ValueError`s the Python code raises; note that the
`"No subtitles found..."` error is raised inside the `try` block and rewrapped
by the generic `except Exception` handler. -/
def youtube_loader (fetch : FetchMode → String → String → FetchOutcome)
    (argument : String) : Except String Fragment :=
  match parse_argument argument with
  | .error e => .error e
  | .ok (videoId, language) =>
    let doneFiles := fun (fs : List String) =>
      match fs with
      | [] =>
        Except.error
          ("Error processing YouTube video: No subtitles found for video "
            ++ videoId
            ++ (match language with
                | some l => if l = "" then "" else " in language " ++ l
                | none => ""))
      | f :: _ =>
        Except.ok
          { content := clean_vtt_content f
          , source := "https://www.youtube.com/watch?v=" ++ videoId
              ++ (match language with
                  | some l => if l = "" then "" else "&cc_lang_pref=" ++ l
                  | none => "") }
    match fetch .manual videoId (effectiveLang language) with
    | .failure diag => .error ("Failed to download subtitles: " ++ diag)
    | .files fs1 =>
      if fs1.isEmpty then
        match fetch .auto videoId (effectiveLang language) with
        | .failure diag => .error ("Failed to download subtitles: " ++ diag)
        | .files fs2 => doneFiles fs2
      else doneFiles fs1

-- Decidable equality for `Except` results, used to evaluate the parser and
-- the loader on concrete inputs.
deriving instance DecidableEq for Except

/-! ## Concrete instances used in the claim analyses -/

/-- Minute digits of a `[HH:MM:SS]` marker line. -/
def markerMinuteChars (s : List Char) : List Char := (s.drop 4).take 2

/-- A cue sequence whose start minutes are 0, 1, 0 (the third cue re-enters
minute value 0 after an hour rollover). -/
def cexC3 : String :=
  "00:00:00.000 --> 00:00:01.000\na\n00:01:00.000 --> 00:01:01.000\nb\n01:00:00.000 --> 01:00:01.000\nc"

/-- A fetcher that always produces one (header-only) caption file. -/
def fetchOne : FetchMode → String → String → FetchOutcome :=
  fun _ _ _ => .files ["WEBVTT"]

/-- A fetcher that always runs successfully but produces no caption file. -/
def fetchNone : FetchMode → String → String → FetchOutcome :=
  fun _ _ _ => .files []

/-- Characters of a bare video identifier (letters, digits, `'-'`, `'_'`). -/
def isIdChar (c : Char) : Bool := c.isAlphanum || c = '-' || c = '_'

/-! ## Lemmas about the scanning primitives -/

theorem isPrefixOf_cons₂ (a b : Char) (as bs : List Char) :
    (a :: as).isPrefixOf (b :: bs) = (a == b && as.isPrefixOf bs) := rfl

theorem splitFirst_some {sep : Char} {cs a b : List Char}
    (h : splitFirst sep cs = some (a, b)) : cs = a ++ sep :: b := by
  induction cs generalizing a b with
  | nil => simp [splitFirst] at h
  | cons c rest ih =>
    by_cases hc : c = sep
    · subst hc
      rw [splitFirst, if_pos rfl] at h
      injection h with h2
      cases h2
      rfl
    · rw [splitFirst, if_neg hc] at h
      rcases hmap : splitFirst sep rest with _ | ⟨a', b'⟩
      · rw [hmap] at h
        simp at h
      · rw [hmap, Option.map_some'] at h
        injection h with h2
        cases h2
        rw [List.cons_append, ← ih hmap]

theorem splitFirst_of_not_mem {sep : Char} {cs : List Char}
    (h : sep ∉ cs) : splitFirst sep cs = none := by
  induction cs with
  | nil => rfl
  | cons c rest ih =>
    have hc : ¬ c = sep := fun he => h (he ▸ List.mem_cons_self c rest)
    simp [splitFirst, hc, ih (fun hm => h (List.mem_cons_of_mem _ hm))]

theorem splitFirst_append_of_not_mem {sep : Char} {xs ys : List Char}
    (h : sep ∉ xs) : splitFirst sep (xs ++ sep :: ys) = some (xs, ys) := by
  induction xs with
  | nil => simp [splitFirst]
  | cons x xs ih =>
    have hx : ¬ x = sep := fun he => h (he ▸ List.mem_cons_self x xs)
    simp [splitFirst, hx, ih (fun hm => h (List.mem_cons_of_mem _ hm))]

/-! ## Lemmas about tag stripping (`re.sub(r"<[^>]+>", "", line)`) -/

theorem subTags_fuel {f1 f2 : Nat} : ∀ {cs : List Char},
    cs.length ≤ f1 → cs.length ≤ f2 → subTags f1 cs = subTags f2 cs := by
  induction f1 generalizing f2 with
  | zero =>
    intro cs h1 _
    have : cs = [] := List.eq_nil_of_length_eq_zero (Nat.le_zero.mp h1)
    subst this
    cases f2 <;> rfl
  | succ f1 ih =>
    intro cs h1 h2
    cases cs with
    | nil => cases f2 <;> rfl
    | cons c rest =>
      cases f2 with
      | zero => exact absurd h2 (by simp)
      | succ f2 =>
        have hr1 : rest.length ≤ f1 := Nat.lt_succ_iff.mp h1
        have hr2 : rest.length ≤ f2 := Nat.lt_succ_iff.mp h2
        by_cases hc : c = '<'
        · subst hc
          rcases hsp : splitFirst '>' rest with _ | ⟨gap, after⟩
          · simp [subTags, hsp, ih hr1 hr2]
          · have hlen : after.length ≤ rest.length := by
              have := splitFirst_some hsp
              subst this
              simp
              omega
            by_cases hg : gap.isEmpty
            · simp [subTags, hsp, hg, ih hr1 hr2]
            · simp [subTags, hsp, hg, ih (le_trans hlen hr1) (le_trans hlen hr2)]
        · simp [subTags, hc, ih hr1 hr2]

theorem mem_subTags {a : Char} : ∀ {f : Nat} {cs : List Char},
    a ∈ subTags f cs → a ∈ cs := by
  intro f
  induction f with
  | zero => intro cs h; simpa [subTags] using h
  | succ f ih =>
    intro cs h
    cases cs with
    | nil => simp [subTags] at h
    | cons c rest =>
      by_cases hc : c = '<'
      · subst hc
        rcases hsp : splitFirst '>' rest with _ | ⟨gap, after⟩
        · rw [subTags, hsp] at h
          rcases List.mem_cons.mp h with h | h
          · exact h ▸ List.mem_cons_self _ _
          · exact List.mem_cons_of_mem _ (ih h)
        · have hsub : after ⊆ rest := by
            have := splitFirst_some hsp
            subst this
            intro x hx
            simp [hx]
          by_cases hg : gap.isEmpty
          · rw [subTags, hsp] at h
            simp only [hg, if_true] at h
            rcases List.mem_cons.mp h with h | h
            · exact h ▸ List.mem_cons_self _ _
            · exact List.mem_cons_of_mem _ (ih h)
          · rw [subTags, hsp] at h
            simp only [hg, if_false] at h
            exact List.mem_cons_of_mem _ (hsub (ih h))
      · rw [subTags] at h
        simp only [hc, if_false] at h
        rcases List.mem_cons.mp h with h | h
        · exact h ▸ List.mem_cons_self _ _
        · exact List.mem_cons_of_mem _ (ih h)

theorem hasTagSub_of_not_mem {cs : List Char} (h : '<' ∉ cs) :
    hasTagSub cs = false := by
  induction cs with
  | nil => rfl
  | cons c rest ih =>
    have hc : ¬ c = '<' := fun he => h (he ▸ List.mem_cons_self c rest)
    simp [hasTagSub, hc, ih (fun hm => h (List.mem_cons_of_mem _ hm))]

theorem not_mem_of_splitFirst_none {sep : Char} {cs : List Char}
    (h : splitFirst sep cs = none) : sep ∉ cs := by
  induction cs with
  | nil => simp
  | cons c rest ih =>
    by_cases hc : c = sep
    · simp [splitFirst, hc] at h
    · simp only [splitFirst, hc, if_false, Option.map_eq_none'] at h
      simp [Ne.symm hc, ih h]

/-- Key property of the tag-stripping pass: its output contains no
`<[^>]+>` match. -/
theorem hasTagSub_subTags : ∀ {f : Nat} {cs : List Char},
    cs.length ≤ f → hasTagSub (subTags f cs) = false := by
  intro f
  induction f with
  | zero =>
    intro cs h
    have : cs = [] := List.eq_nil_of_length_eq_zero (Nat.le_zero.mp h)
    subst this
    rfl
  | succ f ih =>
    intro cs h
    cases cs with
    | nil => rfl
    | cons c rest =>
      have hr : rest.length ≤ f := Nat.lt_succ_iff.mp h
      by_cases hc : c = '<'
      · subst hc
        rcases hsp : splitFirst '>' rest with _ | ⟨gap, after⟩
        · -- no '>' ahead: the '<' is kept, and no '>' survives after it
          have hno : '>' ∉ subTags f rest :=
            fun hm => not_mem_of_splitFirst_none hsp (mem_subTags hm)
          simp [subTags, hsp, hasTagSub, splitFirst_of_not_mem hno, ih hr]
        · have hrest : rest = gap ++ '>' :: after := splitFirst_some hsp
          have hfa : after.length ≤ f := by
            rw [hrest] at hr
            simp at hr
            omega
          by_cases hg : gap.isEmpty
          · -- adjacent "<>": both characters survive, scanning continues
            have hgap : gap = [] := List.isEmpty_iff.mp hg
            subst hgap
            rw [List.nil_append] at hrest
            have hx : subTags f rest = '>' :: subTags f after := by
              subst hrest
              cases f with
              | zero => simp at hr
              | succ f' =>
                have hfa' : after.length ≤ f' := by
                  simp at hr
                  omega
                rw [subTags]
                simp only [show ¬ ('>' : Char) = '<' by decide, if_false]
                exact congrArg _ (subTags_fuel hfa' hfa)
            simp [subTags, hsp, hg, hx, hasTagSub, splitFirst, ih hfa]
          · -- a real match: drop through "<...>" and continue after it
            simp [subTags, hsp, hg, ih hfa]
      · -- ordinary character is kept
        have hno : (if c = '<' then
            match splitFirst '>' (subTags f rest) with
            | some (gap, _) => !gap.isEmpty
            | none => false
          else false) = false := by simp [hc]
        simp [subTags, hc, hasTagSub, hno, ih hr]

/-- `re.sub(r"<[^>]+>", "", line)` leaves no `<[^>]+>` match. -/
theorem hasTagSub_stripTags (cs : List Char) : hasTagSub (stripTags cs) = false :=
  hasTagSub_subTags le_rfl

/-! ## Lemmas about the normalizer loop -/

theorem tsMatch_some {cs ts : List Char} (h : tsMatch cs = some ts) :
    ∃ d1 d2 d3 d4 d5 d6 rest,
      cs = d1 :: d2 :: ':' :: d3 :: d4 :: ':' :: d5 :: d6 :: rest ∧
      ts = [d1, d2, ':', d3, d4, ':', d5, d6] ∧
      d1.isDigit = true ∧ d2.isDigit = true ∧ d3.isDigit = true ∧
      d4.isDigit = true ∧ d5.isDigit = true ∧ d6.isDigit = true := by
  match cs with
  | [] => simp [tsMatch] at h
  | [_] => simp [tsMatch] at h
  | [_, _] => simp [tsMatch] at h
  | [_, _, _] => simp [tsMatch] at h
  | [_, _, _, _] => simp [tsMatch] at h
  | [_, _, _, _, _] => simp [tsMatch] at h
  | [_, _, _, _, _, _] => simp [tsMatch] at h
  | [_, _, _, _, _, _, _] => simp [tsMatch] at h
  | d1 :: d2 :: c1 :: d3 :: d4 :: c2 :: d5 :: d6 :: rest =>
    rw [tsMatch] at h
    split at h
    case isTrue hcond =>
      simp only [Bool.and_eq_true, decide_eq_true_eq] at hcond
      obtain ⟨⟨⟨⟨⟨⟨⟨h1, h2⟩, h3⟩, h4⟩, h5⟩, h6⟩, h7⟩, h8⟩ := hcond
      subst h3
      subst h6
      injection h with hts
      exact ⟨d1, d2, d3, d4, d5, d6, rest, rfl, hts.symm, h1, h2, h4, h5, h7, h8⟩
    case isFalse => exact absurd h (by simp)

theorem ne_of_isDigit {c d : Char} (hc : c.isDigit = true)
    (hd : d.isDigit = false) : ¬ c = d :=
  fun he => absurd (he ▸ hc) (by simp [hd])

/-- The emitted `[HH:MM:SS]` markers contain no `'<'`, hence no tag match. -/
theorem hasTagSub_marker {cs ts : List Char} (h : tsMatch cs = some ts) :
    hasTagSub ('[' :: ts ++ [']']) = false := by
  obtain ⟨d1, d2, d3, d4, d5, d6, rest, _, hts, h1, h2, h3, h4, h5, h6⟩ :=
    tsMatch_some h
  subst hts
  apply hasTagSub_of_not_mem
  intro hm
  simp only [List.cons_append, List.mem_cons, List.not_mem_nil, or_false] at hm
  rcases hm with h | h | h | h | h | h | h | h | h | h
  · exact absurd h (by decide)
  · exact ne_of_isDigit h1 (by decide) h.symm
  · exact ne_of_isDigit h2 (by decide) h.symm
  · exact absurd h (by decide)
  · exact ne_of_isDigit h3 (by decide) h.symm
  · exact ne_of_isDigit h4 (by decide) h.symm
  · exact absurd h (by decide)
  · exact ne_of_isDigit h5 (by decide) h.symm
  · exact ne_of_isDigit h6 (by decide) h.symm
  · exact absurd h (by decide)

/-- Case analysis of one loop iteration: either the state is unchanged, or a
`[HH:MM:SS]` marker is appended (recording a new minute), or a stripped
caption line is appended (non-blank and different from `prev_text`). -/
theorem processLine_shape (st : VttState) (l : List Char) :
    processLine st l = st ∨
    (∃ ts, listContains arrowPat (trimChars l) = true ∧
        tsMatch (trimChars l) = some ts ∧
        (tsMinuteVal ts : Int) ≠ st.lastMinute ∧
        processLine st l =
          { st with cleaned := st.cleaned ++ [.marker ('[' :: ts ++ [']'])],
                    lastMinute := (tsMinuteVal ts : Int) }) ∨
    ((trimChars (stripTags (trimChars l))).isEmpty = false ∧
      some (stripTags (trimChars l)) ≠ st.prevText ∧
      processLine st l =
        { st with cleaned := st.cleaned ++ [.text (stripTags (trimChars l))],
                  prevText := some (stripTags (trimChars l)) }) := by
  unfold processLine
  split
  · exact Or.inl rfl
  split
  · rename_i harr
    split
    · rename_i ts heq
      split
      · rename_i hne
        exact Or.inr (Or.inl ⟨ts, harr, heq, hne, rfl⟩)
      · exact Or.inl rfl
    · exact Or.inl rfl
  split
  · exact Or.inl rfl
  · split
    · rename_i hcond
      rw [Bool.and_eq_true, Bool.not_eq_true', decide_eq_true_eq] at hcond
      exact Or.inr (Or.inr ⟨hcond.1, hcond.2, rfl⟩)
    · exact Or.inl rfl

/-- Invariance of a state predicate along the whole loop. -/
theorem processLines_inv (P : VttState → Prop)
    (hstep : ∀ st l, P st → P (processLine st l)) :
    ∀ (ls : List (List Char)) (st : VttState), P st → P (processLines ls st) := by
  intro ls
  induction ls with
  | nil => exact fun st h => h
  | cons l ls ih =>
    intro st h
    exact ih _ (hstep _ _ h)

/-! ## Claim C1 -/

/-- C1, counterexample: on the input line `a<>b` the normalizer's output is
`a<>b` itself — it contains a `'<'` followed later by a `'>'` (the empty tag
`<>` is not removed, because the regex `<[^>]+>` requires a non-empty body),
refuting the claim that the output never contains such a span. -/
theorem C1_counterexample :
    clean_vtt_content "a<>b" = "a<>b" ∧
    ∃ pre post, (clean_vtt_content "a<>b").toList = pre ++ '<' :: '>' :: post :=
  ⟨by decide, ['a'], ['b'], by decide⟩

/-- C1 (amended): each line the normalizer emits contains no substring of the
form `'<'`, one or more non-`'>'` characters, `'>'` (the matches of
`<[^>]+>`); empty `<>` tags, tags whose `'<'` and `'>'` fall on different
input lines, and lone `'<'`/`'>'` characters are not removed. -/
theorem C1_theorem (content : String) :
    ∀ e ∈ vttEntries content, hasTagSub e.chars = false := by
  intro e he
  refine processLines_inv (fun s => ∀ x ∈ s.cleaned, hasTagSub x.chars = false)
    ?_ (splitChar '\n' content.toList) initVtt ?_ e he
  · intro st l hst x hx
    rcases processLine_shape st l with hsh | ⟨ts, _, hts, _, hsh⟩ | ⟨_, _, hsh⟩
    · rw [hsh] at hx
      exact hst x hx
    · rw [hsh] at hx
      simp only [List.mem_append, List.mem_singleton] at hx
      rcases hx with hx | hx
      · exact hst x hx
      · subst hx
        exact hasTagSub_marker hts
    · rw [hsh] at hx
      simp only [List.mem_append, List.mem_singleton] at hx
      rcases hx with hx | hx
      · exact hst x hx
      · subst hx
        exact hasTagSub_stripTags _
  · intro x hx
    simp [initVtt] at hx

/-- C1, witness: instantiating the amended theorem on a concrete input. -/
theorem C1_witness : hasTagSub (Entry.chars (.text ['x', 'y'])) = false :=
  C1_theorem "x<b>y" (.text ['x', 'y']) (by decide)

/-! ## Claim C2 -/

/-- C2: the normalizer's output never contains two consecutive caption-text
lines with identical text — indeed even across intervening marker lines,
since the dedup compares each stripped line against the most recently
emitted text line (`prev_text`), which markers do not reset — and a caption
line is only emitted when non-blank. -/
theorem C2_theorem (content : String) :
    List.Chain' (· ≠ ·) ((vttEntries content).filterMap textOf) ∧
    ∀ cs, Entry.text cs ∈ vttEntries content → trimChars cs ≠ [] := by
  have key := processLines_inv (fun s =>
      (s.cleaned.filterMap textOf).getLast? = s.prevText ∧
      List.Chain' (· ≠ ·) (s.cleaned.filterMap textOf) ∧
      ∀ cs, Entry.text cs ∈ s.cleaned → trimChars cs ≠ [])
    ?step (splitChar '\n' content.toList) initVtt ?init
  · exact ⟨key.2.1, key.2.2⟩
  case init =>
    refine ⟨rfl, by simp [initVtt], ?_⟩
    intro cs h
    simp [initVtt] at h
  case step =>
    intro st l hst
    obtain ⟨hlast, hchain, hne⟩ := hst
    rcases processLine_shape st l with hsh | ⟨ts, _, _, _, hsh⟩ | ⟨hblank, hprev, hsh⟩
    · rw [hsh]
      exact ⟨hlast, hchain, hne⟩
    · rw [hsh]
      refine ⟨?_, ?_, ?_⟩
      · simpa [List.filterMap_append, textOf] using hlast
      · simpa [List.filterMap_append, textOf] using hchain
      · intro cs h
        simp only [List.mem_append, List.mem_singleton] at h
        rcases h with h | h
        · exact hne cs h
        · simp at h
    · rw [hsh]
      have hfm : (st.cleaned ++ [Entry.text (stripTags (trimChars l))]).filterMap textOf
          = st.cleaned.filterMap textOf ++ [stripTags (trimChars l)] := by
        simp [List.filterMap_append, textOf]
      refine ⟨?_, ?_, ?_⟩
      · rw [hfm, List.getLast?_concat]
      · rw [hfm, List.chain'_append]
        refine ⟨hchain, List.chain'_singleton _, ?_⟩
        intro x hx y hy
        rw [hlast] at hx
        simp only [List.head?_cons, Option.mem_def, Option.some.injEq] at hy
        subst hy
        intro hxy
        subst hxy
        exact hprev (Option.mem_def.mp hx).symm
      · intro cs h
        simp only [List.mem_append, List.mem_singleton] at h
        rcases h with h | h
        · exact hne cs h
        · injection h with h'
          subst h'
          intro hnil
          rw [hnil] at hblank
          simp at hblank

/-! ## Step lemmas for timing and digit lines -/

/-- A line starting with a digit is neither blank nor a header line. -/
theorem skip_cond_false {d : Char} {rest : List Char} (hd : d.isDigit = true) :
    ((d :: rest).isEmpty || "WEBVTT".toList.isPrefixOf (d :: rest)
      || "Kind:".toList.isPrefixOf (d :: rest)
      || "Language:".toList.isPrefixOf (d :: rest)) = false := by
  have hW : ('W' == d) = false :=
    beq_eq_false_iff_ne.mpr (Ne.symm (ne_of_isDigit hd (by decide)))
  have hK : ('K' == d) = false :=
    beq_eq_false_iff_ne.mpr (Ne.symm (ne_of_isDigit hd (by decide)))
  have hL : ('L' == d) = false :=
    beq_eq_false_iff_ne.mpr (Ne.symm (ne_of_isDigit hd (by decide)))
  simp [show "WEBVTT".toList = ['W', 'E', 'B', 'V', 'T', 'T'] from rfl,
    show "Kind:".toList = ['K', 'i', 'n', 'd', ':'] from rfl,
    show "Language:".toList = ['L', 'a', 'n', 'g', 'u', 'a', 'g', 'e', ':'] from rfl,
    isPrefixOf_cons₂, hW, hK, hL]

/-- A line of digits does not contain the `"-->"` separator. -/
theorem listContains_arrow_false {cs : List Char}
    (h : ∀ c ∈ cs, c.isDigit = true) : listContains arrowPat cs = false := by
  induction cs with
  | nil => rfl
  | cons c rest ih =>
    have hc : ('-' == c) = false :=
      beq_eq_false_iff_ne.mpr (Ne.symm (ne_of_isDigit (h c (List.mem_cons_self c rest)) (by decide)))
    have ih' := ih (fun x hx => h x (List.mem_cons_of_mem _ hx))
    rw [arrowPat] at ih'
    simp [listContains, arrowPat, isPrefixOf_cons₂, hc, ih']

/-- A line whose stripped text is a non-empty string of decimal digits is
skipped: the loop state is unchanged. -/
theorem processLine_digit (st : VttState) (l : List Char)
    (hne : trimChars l ≠ []) (hdig : ∀ c ∈ trimChars l, c.isDigit = true) :
    processLine st l = st := by
  rcases hcons : trimChars l with _ | ⟨d, rest⟩
  · exact absurd hcons hne
  have hall : ∀ c ∈ (d :: rest), c.isDigit = true := hcons ▸ hdig
  have hd : d.isDigit = true := hall d (List.mem_cons_self d rest)
  unfold processLine
  rw [hcons, skip_cond_false hd, listContains_arrow_false hall]
  simp [pyIsDigit, List.all_eq_true.mpr hall]

/-- Processing a cue-timing line whose start minute differs from the
recorded one: the marker is appended and the minute recorded. -/
theorem processLine_timing_new (st : VttState) (l ts : List Char)
    (harrow : listContains arrowPat (trimChars l) = true)
    (hts : tsMatch (trimChars l) = some ts)
    (hmin : (tsMinuteVal ts : Int) ≠ st.lastMinute) :
    processLine st l =
      { st with cleaned := st.cleaned ++ [.marker ('[' :: ts ++ [']'])],
                lastMinute := (tsMinuteVal ts : Int) } := by
  obtain ⟨d1, d2, d3, d4, d5, d6, rest, hcs, -, h1, -, -, -, -, -⟩ := tsMatch_some hts
  unfold processLine
  rw [hcs, skip_cond_false h1, ← hcs, harrow, hts]
  simp [hmin]

/-- Processing a cue-timing line whose start minute equals the recorded one:
the loop state is unchanged. -/
theorem processLine_timing_old (st : VttState) (l ts : List Char)
    (harrow : listContains arrowPat (trimChars l) = true)
    (hts : tsMatch (trimChars l) = some ts)
    (hmin : (tsMinuteVal ts : Int) = st.lastMinute) :
    processLine st l = st := by
  obtain ⟨d1, d2, d3, d4, d5, d6, rest, hcs, -, h1, -, -, -, -, -⟩ := tsMatch_some hts
  unfold processLine
  rw [hcs, skip_cond_false h1, ← hcs, harrow, hts]
  simp [hmin]

/-- After any matched cue-timing line, the recorded minute is that of its
start timestamp. -/
theorem processLine_timing_lastMinute (st : VttState) (l ts : List Char)
    (harrow : listContains arrowPat (trimChars l) = true)
    (hts : tsMatch (trimChars l) = some ts) :
    (processLine st l).lastMinute = (tsMinuteVal ts : Int) := by
  by_cases h : (tsMinuteVal ts : Int) = st.lastMinute
  · rw [processLine_timing_old st l ts harrow hts h, h]
  · rw [processLine_timing_new st l ts harrow hts h]

/-- A line without the `"-->"` separator emits no marker and leaves the
recorded minute unchanged. -/
theorem processLine_non_timing (st : VttState) (l : List Char)
    (harrow : listContains arrowPat (trimChars l) = false) :
    (processLine st l).lastMinute = st.lastMinute ∧
    ∃ r, (processLine st l).cleaned = st.cleaned ++ r ∧ entryMarkers r = [] := by
  rcases processLine_shape st l with hsh | ⟨ts, harr, _, _, hsh⟩ | ⟨_, _, hsh⟩
  · rw [hsh]
    exact ⟨rfl, [], by simp, rfl⟩
  · rw [harr] at harrow
    cases harrow
  · rw [hsh]
    exact ⟨rfl, [.text (stripTags (trimChars l))], rfl, by simp [entryMarkers]⟩

/-! ## Claim C3 -/

/-- C3, counterexample: on cues with start minutes 0, 1, 0 (the third
re-entering minute value 0 after an hour rollover) the normalizer emits
three markers, two of them for the same minute value 0 — refuting "at most
one marker per distinct minute value encountered": only the **last** recorded
minute is compared. -/
theorem C3_counterexample :
    entryMarkers (vttEntries cexC3) =
      ["[00:00:00]".toList, "[00:01:00]".toList, "[01:00:00]".toList] ∧
    ¬ ((entryMarkers (vttEntries cexC3)).map markerMinuteChars).Nodup :=
  ⟨by decide, by decide⟩

/-- C3 (amended): a marker is emitted exactly on the cues whose start minute
differs from the previously recorded one — at most one marker per maximal
run of consecutive cues sharing a minute value, in encounter order.  In
particular, for three consecutive cues within the same minute exactly one
marker is emitted, positioned before the first cue's text. -/
theorem C3_theorem (st : VttState) (c1 t1 c2 t2 c3 t3 ts1 ts2 ts3 : List Char)
    (m : Nat)
    (ha1 : listContains arrowPat (trimChars c1) = true)
    (h1 : tsMatch (trimChars c1) = some ts1) (hm1 : tsMinuteVal ts1 = m)
    (ha2 : listContains arrowPat (trimChars c2) = true)
    (h2 : tsMatch (trimChars c2) = some ts2) (hm2 : tsMinuteVal ts2 = m)
    (ha3 : listContains arrowPat (trimChars c3) = true)
    (h3 : tsMatch (trimChars c3) = some ts3) (hm3 : tsMinuteVal ts3 = m)
    (ht1 : listContains arrowPat (trimChars t1) = false)
    (ht2 : listContains arrowPat (trimChars t2) = false)
    (ht3 : listContains arrowPat (trimChars t3) = false)
    (hnew : (m : Int) ≠ st.lastMinute) :
    ∃ r, (processLines [c1, t1, c2, t2, c3, t3] st).cleaned
        = st.cleaned ++ Entry.marker ('[' :: ts1 ++ [']']) :: r ∧
      entryMarkers r = [] := by
  have e1 : processLine st c1 =
      { st with cleaned := st.cleaned ++ [.marker ('[' :: ts1 ++ [']'])],
                lastMinute := (tsMinuteVal ts1 : Int) } :=
    processLine_timing_new st c1 ts1 ha1 h1 (by rw [hm1]; exact hnew)
  set st1 := processLine st c1 with hst1
  obtain ⟨hl1, r1, hc1, hmk1⟩ := processLine_non_timing st1 t1 ht1
  set st2 := processLine st1 t1 with hst2
  have e3 : processLine st2 c2 = st2 := by
    apply processLine_timing_old st2 c2 ts2 ha2 h2
    rw [hl1, e1, hm2, hm1]
  obtain ⟨hl2, r2, hc2, hmk2⟩ := processLine_non_timing st2 t2 ht2
  set st3 := processLine st2 t2 with hst3
  have e5 : processLine st3 c3 = st3 := by
    apply processLine_timing_old st3 c3 ts3 ha3 h3
    rw [hl2, hl1, e1, hm3, hm1]
  obtain ⟨hl3, r3, hc3, hmk3⟩ := processLine_non_timing st3 t3 ht3
  refine ⟨r1 ++ r2 ++ r3, ?_, ?_⟩
  · show (processLine (processLine (processLine (processLine (processLine
        (processLine st c1) t1) c2) t2) c3) t3).cleaned = _
    rw [← hst1, ← hst2, e3, ← hst3, e5, hc3, hc2, hc1, e1]
    simp
  · have hsplit : entryMarkers (r1 ++ r2 ++ r3)
        = entryMarkers r1 ++ entryMarkers r2 ++ entryMarkers r3 := by
      simp [entryMarkers, List.filterMap_append]
    rw [hsplit, hmk1, hmk2, hmk3]
    rfl

/-- C3, witness: three cues in minute 5, from the initial state. -/
theorem C3_witness :
    ∃ r, (processLines ["00:05:00.000 --> 00:05:01.000".toList, ['a'],
        "00:05:10.000 --> 00:05:11.000".toList, ['b'],
        "00:05:20.000 --> 00:05:21.000".toList, ['c']] initVtt).cleaned
      = initVtt.cleaned ++ Entry.marker ('[' :: "00:05:00".toList ++ [']']) :: r ∧
      entryMarkers r = [] :=
  C3_theorem initVtt "00:05:00.000 --> 00:05:01.000".toList ['a']
    "00:05:10.000 --> 00:05:11.000".toList ['b']
    "00:05:20.000 --> 00:05:21.000".toList ['c']
    "00:05:00".toList "00:05:10".toList "00:05:20".toList 5
    (by decide) (by decide) (by decide) (by decide) (by decide) (by decide)
    (by decide) (by decide) (by decide) (by decide) (by decide) (by decide)
    (by decide)

/-! ## Claim C4 -/

/-- C4: two consecutive cue-timing lines with equal start-minute digits but
different hours — the second emits no marker and leaves the whole state
unchanged: minute-change detection looks only at the minute digits. -/
theorem C4_theorem (st : VttState) (l1 l2 ts1 ts2 : List Char)
    (ha1 : listContains arrowPat (trimChars l1) = true)
    (h1 : tsMatch (trimChars l1) = some ts1)
    (ha2 : listContains arrowPat (trimChars l2) = true)
    (h2 : tsMatch (trimChars l2) = some ts2)
    (hmin : tsMinuteVal ts2 = tsMinuteVal ts1)
    (_hhour : ts1.take 2 ≠ ts2.take 2) :
    processLine (processLine st l1) l2 = processLine st l1 := by
  apply processLine_timing_old _ _ _ ha2 h2
  rw [processLine_timing_lastMinute st l1 ts1 ha1 h1]
  exact_mod_cast congrArg (Nat.cast : Nat → Int) hmin

/-- C4, witness: `00:05:00` then `01:05:00` from the initial state. -/
theorem C4_witness :
    processLine (processLine initVtt "00:05:00.000 --> 00:05:02.000".toList)
        "01:05:00.000 --> 01:05:02.000".toList
      = processLine initVtt "00:05:00.000 --> 00:05:02.000".toList :=
  C4_theorem initVtt "00:05:00.000 --> 00:05:02.000".toList
    "01:05:00.000 --> 01:05:02.000".toList
    "00:05:00".toList "01:05:00".toList
    (by decide) (by decide) (by decide) (by decide) (by decide) (by decide)

/-! ## Claim C10 -/

/-- C10: a line consisting solely of decimal digits is dropped wherever it
occurs — inserting such a line anywhere in the input leaves the loop result
unchanged, so it never appears in the output, whether or not it is an actual
sequential cue index. -/
theorem C10_theorem (pre post : List (List Char)) (dl : List Char)
    (st : VttState)
    (hne : trimChars dl ≠ []) (hdig : ∀ c ∈ trimChars dl, c.isDigit = true) :
    processLines (pre ++ dl :: post) st = processLines (pre ++ post) st := by
  unfold processLines
  rw [List.foldl_append, List.foldl_append, List.foldl_cons,
    processLine_digit _ _ hne hdig]

/-- C10, witness: the caption line `2024` is dropped between two text
lines. -/
theorem C10_witness :
    processLines ([['a']] ++ "2024".toList :: [['b']]) initVtt
      = processLines ([['a']] ++ [['b']]) initVtt :=
  C10_theorem [['a']] [['b']] "2024".toList initVtt (by decide) (by decide)

/-- C2, witness: instantiating the theorem's per-line part on a concrete
input. -/
theorem C2_witness : trimChars ['h', 'i'] ≠ [] :=
  ( C2_theorem "hi").2 ['h', 'i'] (by decide)

/-! ## Lemmas about the URL grammar -/

theorem isIdChar_not_c0 {c : Char} (hc : isIdChar c = true) :
    isC0OrSpace c = false := by
  rw [isC0OrSpace, decide_eq_false_iff_not]
  intro hle
  have h32 : c.val.toBitVec.toNat ≤ 32 := hle
  rw [isIdChar] at hc
  simp only [Bool.or_eq_true, decide_eq_true_eq] at hc
  rcases hc with (h | h) | h
  · rw [Char.isAlphanum, Bool.or_eq_true] at h
    rcases h with h | h
    · rw [Char.isAlpha, Bool.or_eq_true] at h
      rcases h with h | h
      · rw [Char.isUpper, Bool.and_eq_true, decide_eq_true_eq,
          decide_eq_true_eq] at h
        have h65 : (65 : UInt32).toBitVec.toNat ≤ c.val.toBitVec.toNat := h.1
        simp at h65
        omega
      · rw [Char.isLower, Bool.and_eq_true, decide_eq_true_eq,
          decide_eq_true_eq] at h
        have h97 : (97 : UInt32).toBitVec.toNat ≤ c.val.toBitVec.toNat := h.1
        simp at h97
        omega
    · rw [Char.isDigit, Bool.and_eq_true, decide_eq_true_eq,
        decide_eq_true_eq] at h
      have h48 : (48 : UInt32).toBitVec.toNat ≤ c.val.toBitVec.toNat := h.1
      simp at h48
      omega
  · subst h
    exact absurd hle (by decide)
  · subst h
    exact absurd hle (by decide)

theorem isIdChar_ne {c d : Char} (hc : isIdChar c = true)
    (hd : isIdChar d = false) : ¬ c = d :=
  fun he => absurd (he ▸ hc) (by simp [hd])

theorem takeWhile_eq_self_of_all {p : Char → Bool} {cs : List Char}
    (h : ∀ c ∈ cs, p c = true) : cs.takeWhile p = cs := by
  induction cs with
  | nil => rfl
  | cons c rest ih =>
    rw [List.takeWhile_cons, h c (List.mem_cons_self c rest)]
    simp [ih (fun x hx => h x (List.mem_cons_of_mem _ hx))]

theorem takeWhile_append_of_all {p : Char → Bool} {xs ys : List Char}
    (h : ∀ c ∈ xs, p c = true) :
    (xs ++ ys).takeWhile p = xs ++ ys.takeWhile p := by
  induction xs with
  | nil => rfl
  | cons x xs ih =>
    rw [List.cons_append, List.takeWhile_cons, h x (List.mem_cons_self x xs)]
    simp [ih (fun c hc => h c (List.mem_cons_of_mem _ hc))]

theorem dropWhile_append_of_all {p : Char → Bool} {xs ys : List Char}
    (h : ∀ c ∈ xs, p c = true) :
    (xs ++ ys).dropWhile p = ys.dropWhile p := by
  induction xs with
  | nil => rfl
  | cons x xs ih =>
    rw [List.cons_append, List.dropWhile_cons, h x (List.mem_cons_self x xs)]
    simp [ih (fun c hc => h c (List.mem_cons_of_mem _ hc))]

theorem listContains_single_of_mem {c : Char} {cs : List Char} (h : c ∈ cs) :
    listContains [c] cs = true := by
  induction cs with
  | nil => simp at h
  | cons x rest ih =>
    rcases List.mem_cons.mp h with h | h
    · subst h
      simp [listContains, isPrefixOf_cons₂]
    · simp [listContains, ih h]

theorem listContains_single_of_not_mem {c : Char} {cs : List Char}
    (h : c ∉ cs) : listContains [c] cs = false := by
  induction cs with
  | nil => rfl
  | cons x rest ih =>
    have hx : (c == x) = false :=
      beq_eq_false_iff_ne.mpr (fun he => h (he ▸ List.mem_cons_self x rest))
    simp [listContains, isPrefixOf_cons₂, hx,
      ih (fun hm => h (List.mem_cons_of_mem _ hm))]

theorem string_mk_toList (s : String) : String.mk s.toList = s := rfl

theorem string_toList_append (s t : String) :
    (s ++ t).toList = s.toList ++ t.toList := rfl

/-- `urlparse` on a bare identifier (no separators, no unsafe characters):
everything lands in the path. -/
theorem urlparse_bare {p : List Char} (hne : p ≠ [])
    (hall : ∀ c ∈ p, isIdChar c = true) :
    urlparseModel p = ⟨[], [], p, [], [], []⟩ := by
  obtain ⟨c0, cs, rfl⟩ := List.exists_cons_of_ne_nil hne
  have hc0 := hall c0 (List.mem_cons_self c0 cs)
  have hdrop : (c0 :: cs).dropWhile isC0OrSpace = c0 :: cs := by
    rw [List.dropWhile_cons, isIdChar_not_c0 hc0]
    simp
  have hfilter : (c0 :: cs).filter (fun c => !isTabCrLf c) = c0 :: cs := by
    apply List.filter_eq_self.mpr
    intro c hcmem
    have hc := hall c hcmem
    simp [isTabCrLf, isIdChar_ne hc (by decide : isIdChar '\t' = false),
      isIdChar_ne hc (by decide : isIdChar '\r' = false),
      isIdChar_ne hc (by decide : isIdChar '\n' = false)]
  have hcolon : splitFirst ':' (c0 :: cs) = none :=
    splitFirst_of_not_mem (fun hm => absurd (hall ':' hm) (by decide))
  have hhash : splitFirst '#' (c0 :: cs) = none :=
    splitFirst_of_not_mem (fun hm => absurd (hall '#' hm) (by decide))
  have hq : splitFirst '?' (c0 :: cs) = none :=
    splitFirst_of_not_mem (fun hm => absurd (hall '?' hm) (by decide))
  have hslash : (['/', '/'].isPrefixOf (c0 :: cs)) = false := by
    rw [isPrefixOf_cons₂]
    have : ('/' == c0) = false :=
      beq_eq_false_iff_ne.mpr
        (Ne.symm (isIdChar_ne hc0 (by decide : isIdChar '/' = false)))
    simp [this]
  have hsemi : listContains [';'] (c0 :: cs) = false :=
    listContains_single_of_not_mem (fun hm => absurd (hall ';' hm) (by decide))
  rw [urlparseModel, urlsplitModel]
  simp only [hdrop, hfilter, hcolon, hhash, hq, hslash, hsemi, if_false,
    Bool.and_false, Bool.false_eq_true]

/-! ## Claim C5 -/

/-- C5, counterexample: when the language prefix itself begins with `http`,
the whole argument starts with `http`, so the split is skipped: the prefix
becomes a URL scheme and is discarded, not returned as the language. -/
theorem C5_counterexample :
    parse_argument "httpes:dQw4w9WgXcQ" = .ok ("dQw4w9WgXcQ", none) ∧
    parse_argument "httpes:dQw4w9WgXcQ" ≠ .ok ("dQw4w9WgXcQ", some "httpes") :=
  ⟨by decide, by decide⟩

/-- C5 (amended): for `"<lang>:<id>"` with a bare identifier `<id>`,
`parse` returns `(<id>, <lang>)` provided the whole argument does not start
with `"http"` — in particular `<lang>` must not begin with `"http"`; when it
does, the split is skipped and the prefix is consumed as a URL scheme. -/
theorem C5_theorem (lang id : String)
    (hhttp : "http".toList.isPrefixOf (lang.toList ++ ':' :: id.toList) = false)
    (hlang : ':' ∉ lang.toList)
    (hne : id.toList ≠ [])
    (hgood : ∀ c ∈ id.toList, isIdChar c = true) :
    parse_argument (lang ++ ":" ++ id) = .ok (id, some lang) := by
  have harg : (lang ++ ":" ++ id).toList = lang.toList ++ ':' :: id.toList := by
    rw [string_toList_append, string_toList_append]
    simp
  have hmem : (':' : Char) ∈ lang.toList ++ ':' :: id.toList :=
    List.mem_append_right _ (List.mem_cons_self _ _)
  have hsp : langSplit (lang.toList ++ ':' :: id.toList)
      = (some lang.toList, id.toList) := by
    rw [langSplit, listContains_single_of_mem hmem, hhttp,
      splitFirst_append_of_not_mem hlang]
    rfl
  have htake : (id.toList).takeWhile (fun c => decide (c ≠ '?')) = id.toList := by
    apply takeWhile_eq_self_of_all
    intro c hc
    simp [isIdChar_ne (hgood c hc) (by decide : isIdChar '?' = false)]
  rw [parse_argument, harg, hsp]
  simp only [urlparse_bare hne hgood]
  rw [if_neg (by decide), if_neg (by decide), if_neg (by decide)]
  simp only [htake]
  rw [string_mk_toList, Option.map_some', string_mk_toList]

/-- C5, witness: a normal language code. -/
theorem C5_witness :
    parse_argument ("es" ++ ":" ++ "dQw4w9WgXcQ") = .ok ("dQw4w9WgXcQ", some "es") :=
  C5_theorem "es" "dQw4w9WgXcQ" (by decide) (by decide) (by decide) (by decide)

theorem dropWhile_eq_self_of_all {p : Char → Bool} {cs : List Char}
    (h : ∀ c ∈ cs, p c = false) : cs.dropWhile p = cs := by
  cases cs with
  | nil => rfl
  | cons c rest =>
    rw [List.dropWhile_cons, h c (List.mem_cons_self c rest)]
    simp

/-- `urlparse` on `https://youtu.be/<path>` for a path made of identifier
characters and slashes: the host is the short-link domain and the whole
`/<path>` is the URL path. -/
theorem urlparse_youtuBe {p : List Char}
    (hall : ∀ c ∈ p, isIdChar c = true ∨ c = '/') :
    urlparseModel ("https://youtu.be/".toList ++ p)
      = ⟨"https".toList, "youtu.be".toList, '/' :: p, [], [], []⟩ := by
  have hsafe : ∀ c ∈ p, isTabCrLf c = false := by
    intro c hc
    rcases hall c hc with h | h
    · simp [isTabCrLf, isIdChar_ne h (by decide : isIdChar '\t' = false),
        isIdChar_ne h (by decide : isIdChar '\r' = false),
        isIdChar_ne h (by decide : isIdChar '\n' = false)]
    · subst h
      decide
  have hnomem : ∀ (d : Char), isIdChar d = false → d ≠ '/' → d ∉ p := by
    intro d hd hslash hm
    rcases hall d hm with h | h
    · rw [h] at hd
      cases hd
    · exact hslash h
  have hdrop : ("https://youtu.be/".toList ++ p).dropWhile isC0OrSpace
      = "https://youtu.be/".toList ++ p := by
    rw [show "https://youtu.be/".toList ++ p
        = 'h' :: ("ttps://youtu.be/".toList ++ p) from rfl,
      List.dropWhile_cons]
    simp [show isC0OrSpace 'h' = false from by decide]
  have hfilter : ("https://youtu.be/".toList ++ p).filter (fun c => !isTabCrLf c)
      = "https://youtu.be/".toList ++ p := by
    apply List.filter_eq_self.mpr
    intro c hc
    rcases List.mem_append.mp hc with h | h
    · fin_cases h <;> decide
    · simp [hsafe c h]
  have hscheme : splitFirst ':' ("https://youtu.be/".toList ++ p)
      = some ("https".toList, "//youtu.be/".toList ++ p) := by
    rw [show "https://youtu.be/".toList ++ p
        = "https".toList ++ ':' :: ("//youtu.be/".toList ++ p) from rfl]
    exact splitFirst_append_of_not_mem (by decide)
  have hhash : splitFirst '#' ('/' :: p) = none := by
    apply splitFirst_of_not_mem
    intro hm
    rcases List.mem_cons.mp hm with h | h
    · cases h
    · exact hnomem '#' (by decide) (by decide) h
  have hq : splitFirst '?' ('/' :: p) = none := by
    apply splitFirst_of_not_mem
    intro hm
    rcases List.mem_cons.mp hm with h | h
    · cases h
    · exact hnomem '?' (by decide) (by decide) h
  have hsemi : listContains [';'] ('/' :: p) = false := by
    apply listContains_single_of_not_mem
    intro hm
    rcases List.mem_cons.mp hm with h | h
    · cases h
    · exact hnomem ';' (by decide) (by decide) h
  have hnet : ("//youtu.be/".toList ++ p).drop 2 = "youtu.be".toList ++ '/' :: p :=
    rfl
  have hpred : ∀ c ∈ "youtu.be".toList,
      (fun c => !(c = '/' || c = '?' || c = '#')) c = true := by
    intro c hc
    fin_cases hc <;> decide
  have htake : ("youtu.be".toList ++ '/' :: p).takeWhile
      (fun c => !(c = '/' || c = '?' || c = '#')) = "youtu.be".toList := by
    rw [takeWhile_append_of_all hpred, List.takeWhile_cons]
    simp
  have hdrop2 : ("youtu.be".toList ++ '/' :: p).dropWhile
      (fun c => !(c = '/' || c = '?' || c = '#')) = '/' :: p := by
    rw [dropWhile_append_of_all hpred, List.dropWhile_cons]
    simp
  rw [urlparseModel, urlsplitModel]
  simp only [hdrop, hfilter, hscheme]
  rw [show ("https".toList : List Char) = 'h' :: "ttps".toList from rfl]
  simp only [show ('h'.isAlpha && "ttps".toList.all isSchemeChar) = true from by decide,
    if_true]
  simp only [show (['/', '/'].isPrefixOf ("//youtu.be/".toList ++ p)) = true from by
    rw [show "//youtu.be/".toList ++ p = '/' :: '/' :: ("youtu.be/".toList ++ p) from rfl]
    simp [isPrefixOf_cons₂], if_true]
  simp only [show ("//youtu.be/".toList ++ p).drop 2 = "youtu.be".toList ++ '/' :: p from rfl]
  simp only [htake, hdrop2, hhash, hq]
  simp only [show (('h' :: "ttps".toList).map pyLower) = "https".toList from by decide]
  simp only [show usesParams.contains "https".toList = true from by decide, Bool.true_and,
    hsemi, Bool.false_eq_true, if_false]
  rfl

theorem string_append_eq_mk (s t : String) : s ++ t = ⟨s.toList ++ t.toList⟩ :=
  rfl

/-- `parse` on `https://youtu.be/<path>` for a non-empty path starting with
an identifier character: the video id is the entire path with the leading
slash removed. -/
theorem parse_youtuBe {c0 : Char} {cs : List Char}
    (hc0 : isIdChar c0 = true)
    (hall : ∀ c ∈ c0 :: cs, isIdChar c = true ∨ c = '/') :
    parse_argument ⟨"https://youtu.be/".toList ++ c0 :: cs⟩
      = .ok (⟨c0 :: cs⟩, none) := by
  have hpre : "http".toList.isPrefixOf
      ("https://youtu.be/".toList ++ c0 :: cs) = true := rfl
  have hsp : langSplit ("https://youtu.be/".toList ++ c0 :: cs)
      = (none, "https://youtu.be/".toList ++ c0 :: cs) := by
    rw [langSplit, hpre]
    simp
  have hdw : ('/' :: c0 :: cs).dropWhile (fun c => decide (c = '/'))
      = c0 :: cs := by
    rw [List.dropWhile_cons]
    simp only [decide_eq_true_eq, if_pos rfl]
    rw [List.dropWhile_cons]
    simp [isIdChar_ne hc0 (by decide : isIdChar '/' = false)]
  have htw : (c0 :: cs).takeWhile (fun c => decide (c ≠ '?')) = c0 :: cs := by
    apply takeWhile_eq_self_of_all
    intro c hc
    rcases hall c hc with h | h
    · simp [isIdChar_ne h (by decide : isIdChar '?' = false)]
    · subst h
      decide
  rw [parse_argument]
  simp only [show (String.mk ("https://youtu.be/".toList ++ c0 :: cs)).toList
      = "https://youtu.be/".toList ++ c0 :: cs from rfl, hsp,
    urlparse_youtuBe hall]
  rw [if_neg (by decide), if_pos trivial]
  simp only [hdw, htw]
  rfl

/-! ## Claim C6 -/

/-- C6, counterexample: for a `youtu.be` URL whose path has two segments the
parser returns the whole remaining path `abc/def`, not the first path
segment `abc`: the code only strips leading slashes (`lstrip("/")`), it
never splits on `/`. -/
theorem C6_counterexample :
    parse_argument "https://youtu.be/abc/def" = .ok ("abc/def", none) ∧
    parse_argument "https://youtu.be/abc/def" ≠ .ok ("abc", none) :=
  ⟨by decide, by decide⟩

/-- C6 (amended): for a `youtu.be` URL the video id is the entire URL path
with the leading slash removed and the query string discarded — which equals
the first path segment only when the path has a single segment. -/
theorem C6_theorem (a b : String) (ha : a.toList ≠ []) (_hb : b.toList ≠ [])
    (hga : ∀ c ∈ a.toList, isIdChar c = true)
    (hgb : ∀ c ∈ b.toList, isIdChar c = true) :
    parse_argument ("https://youtu.be/" ++ a) = .ok (a, none) ∧
    parse_argument ("https://youtu.be/" ++ a ++ "/" ++ b)
      = .ok (a ++ "/" ++ b, none) := by
  obtain ⟨c0, cs, hcons⟩ := List.exists_cons_of_ne_nil ha
  have hc0 : isIdChar c0 = true := hga c0 (by rw [hcons]; exact List.mem_cons_self c0 cs)
  constructor
  · have harg : "https://youtu.be/" ++ a
        = ⟨"https://youtu.be/".toList ++ c0 :: cs⟩ := by
      rw [string_append_eq_mk, hcons]
    rw [harg, parse_youtuBe hc0 (by
      intro c hc
      rw [← hcons] at hc
      exact Or.inl (hga c hc))]
    rw [← hcons, string_mk_toList]
  · have harg : "https://youtu.be/" ++ a ++ "/" ++ b
        = ⟨"https://youtu.be/".toList ++ c0 :: (cs ++ '/' :: b.toList)⟩ := by
      rw [string_append_eq_mk, string_append_eq_mk, string_append_eq_mk, hcons]
      apply congrArg String.mk
      simp
    have hall : ∀ c ∈ c0 :: (cs ++ '/' :: b.toList),
        isIdChar c = true ∨ c = '/' := by
      intro c hc
      rcases List.mem_cons.mp hc with h | h
      · exact Or.inl (h ▸ hc0)
      · rcases List.mem_append.mp h with h | h
        · exact Or.inl (hga c (by rw [hcons]; exact List.mem_cons_of_mem _ h))
        · rcases List.mem_cons.mp h with h | h
          · exact Or.inr h
          · exact Or.inl (hgb c h)
    rw [harg, parse_youtuBe hc0 hall]
    have hres : (a ++ "/" ++ b) = ⟨c0 :: (cs ++ '/' :: b.toList)⟩ := by
      rw [string_append_eq_mk, string_append_eq_mk, hcons]
      apply congrArg String.mk
      simp
    rw [hres]

/-- C6, witness: single- and two-segment paths. -/
theorem C6_witness :
    parse_argument ("https://youtu.be/" ++ "X") = .ok ("X", none) ∧
    parse_argument ("https://youtu.be/" ++ "X" ++ "/" ++ "Y")
      = .ok ("X" ++ "/" ++ "Y", none) :=
  C6_theorem "X" "Y" (by decide) (by decide) (by decide) (by decide)

/-! ## Claim C7 -/

/-- C7: when the parsed host is the canonical hosting domain (with or
without the `www.` prefix), `parse` returns the first value of the `v` query
parameter as the video id, and raises `ValueError` when `parse_qs` produces
no `v` binding; and any other non-empty host raises `ValueError`. -/
theorem C7_theorem (arg : String) :
    (((urlparseModel (langSplit arg.toList).2).netloc = "www.youtube.com".toList ∨
      (urlparseModel (langSplit arg.toList).2).netloc = "youtube.com".toList) →
      (∀ v, qpFirst "v".toList (urlparseModel (langSplit arg.toList).2).query
          = some v →
        parse_argument arg
          = .ok (⟨v⟩, ((langSplit arg.toList).1).map (fun l => (⟨l⟩ : String)))) ∧
      (qpFirst "v".toList (urlparseModel (langSplit arg.toList).2).query = none →
        parse_argument arg
          = .error ("Invalid YouTube URL: " ++ ⟨(langSplit arg.toList).2⟩))) ∧
    ((urlparseModel (langSplit arg.toList).2).netloc ≠ "www.youtube.com".toList →
     (urlparseModel (langSplit arg.toList).2).netloc ≠ "youtube.com".toList →
     (urlparseModel (langSplit arg.toList).2).netloc ≠ "youtu.be".toList →
     (urlparseModel (langSplit arg.toList).2).netloc ≠ [] →
      parse_argument arg
        = .error ("Invalid YouTube URL: " ++ ⟨(langSplit arg.toList).2⟩)) := by
  constructor
  · intro hdom
    constructor
    · intro v hv
      simp only [parse_argument]
      rw [if_pos hdom, hv]
    · intro hv
      simp only [parse_argument]
      rw [if_pos hdom, hv]
  · intro h1 h2 h3 h4
    simp only [parse_argument]
    rw [if_neg (by simp only [not_or]; exact ⟨h1, h2⟩), if_neg h3,
      if_pos (by simp only [Bool.not_eq_true', List.isEmpty_eq_false]; exact h4)]

/-- C7, witness: a canonical URL with `v`, one without it, and a foreign
host. -/
theorem C7_witness :
    parse_argument "https://www.youtube.com/watch?v=dQw4w9WgXcQ"
      = .ok ("dQw4w9WgXcQ", none) ∧
    parse_argument "https://www.youtube.com/watch"
      = .error ("Invalid YouTube URL: " ++ "https://www.youtube.com/watch") ∧
    parse_argument "https://example.com/video"
      = .error ("Invalid YouTube URL: " ++ "https://example.com/video") := by
  refine ⟨?_, ?_, ?_⟩
  · have h := (( C7_theorem "https://www.youtube.com/watch?v=dQw4w9WgXcQ").1
      (by decide)).1 "dQw4w9WgXcQ".toList (by decide)
    exact h.trans (by decide)
  · have h := (( C7_theorem "https://www.youtube.com/watch").1 (by decide)).2
      (by decide)
    exact h.trans (by decide)
  · have h := ( C7_theorem "https://example.com/video").2 (by decide) (by decide)
      (by decide) (by decide)
    exact h.trans (by decide)

/-! ## Lemmas about the loader -/

theorem string_append_assoc (a b c : String) : a ++ b ++ c = a ++ (b ++ c) := by
  cases a
  cases b
  cases c
  exact congrArg String.mk (List.append_assoc _ _ _)

theorem string_append_empty (s : String) : s ++ "" = s := by
  cases s
  exact congrArg String.mk (List.append_nil _)

/-! ## Claim C8 -/

/-- C8, counterexample: `":dQw4w9WgXcQ"` explicitly supplies the empty
language `""` through the colon prefix, and the parser returns it
(`language = some ""`); yet the loader appends no `cc_lang_pref` suffix
(Python truthiness, `if language:`) — the supplied language is not echoed
into the source, and the default `"en"` is used for the fetch. -/
theorem C8_counterexample :
    parse_argument ":dQw4w9WgXcQ" = .ok ("dQw4w9WgXcQ", some "") ∧
    (youtube_loader fetchOne ":dQw4w9WgXcQ").map Fragment.source
      = .ok "https://www.youtube.com/watch?v=dQw4w9WgXcQ" :=
  ⟨by decide, by decide⟩

/-- C8 (amended): on every successful load the source is the canonical watch
URL for the parsed video id, with `&cc_lang_pref=<l>` appended exactly when
the supplied language is non-empty (Python truthiness); such a language is
echoed verbatim without validation, and no suffix is appended when the
language is absent or empty (the cases where the `"en"` default is used). -/
theorem C8_theorem (fetch : FetchMode → String → String → FetchOutcome)
    (arg vid : String) (lang : Option String) (frag : Fragment)
    (hp : parse_argument arg = .ok (vid, lang))
    (hl : youtube_loader fetch arg = .ok frag) :
    (∀ l, lang = some l → l ≠ "" →
      frag.source = "https://www.youtube.com/watch?v=" ++ vid
        ++ "&cc_lang_pref=" ++ l) ∧
    ((lang = none ∨ lang = some "") →
      frag.source = "https://www.youtube.com/watch?v=" ++ vid) := by
  have hshape : frag.source = "https://www.youtube.com/watch?v=" ++ vid
      ++ (match lang with
          | some l => if l = "" then "" else "&cc_lang_pref=" ++ l
          | none => "") := by
    simp only [youtube_loader, hp] at hl
    rcases hm : fetch .manual vid (effectiveLang lang) with diag | fs1 <;>
      rw [hm] at hl
    · cases hl
    · rcases fs1 with _ | ⟨f1, fs1⟩
      · simp only [List.isEmpty_nil, if_true] at hl
        rcases ha : fetch .auto vid (effectiveLang lang) with diag | fs2 <;>
          rw [ha] at hl
        · cases hl
        · rcases fs2 with _ | ⟨f2, fs2⟩
          · cases hl
          · cases hl
            cases lang <;> rfl
      · simp only [List.isEmpty_cons, Bool.false_eq_true, if_false] at hl
        cases hl
        cases lang <;> rfl
  constructor
  · rintro l rfl hne
    rw [hshape]
    simp [if_neg hne, string_append_assoc]
  · rintro (rfl | rfl)
    · rw [hshape, string_append_empty]
    · rw [hshape]
      simp [string_append_empty]

/-- C8, witness: an explicitly supplied non-empty language. -/
theorem C8_witness :
    Fragment.source
        ⟨"", "https://www.youtube.com/watch?v=dQw4w9WgXcQ&cc_lang_pref=es"⟩
      = "https://www.youtube.com/watch?v=" ++ "dQw4w9WgXcQ"
          ++ "&cc_lang_pref=" ++ "es" :=
  (C8_theorem fetchOne "es:dQw4w9WgXcQ" "dQw4w9WgXcQ" (some "es")
      ⟨"", "https://www.youtube.com/watch?v=dQw4w9WgXcQ&cc_lang_pref=es"⟩
      (by decide) (by decide)).1 "es" rfl (by decide)

/-! ## Claim C9 -/

/-- C9: when both fetch runs complete without execution error but produce no
caption file, the load fails (no fragment), with a message containing the
video id and — when a language was supplied — that language. -/
theorem C9_theorem (fetch : FetchMode → String → String → FetchOutcome)
    (arg vid : String) (lang : Option String)
    (hp : parse_argument arg = .ok (vid, lang))
    (hm : fetch .manual vid (effectiveLang lang) = .files [])
    (ha : fetch .auto vid (effectiveLang lang) = .files []) :
    ∃ msg, youtube_loader fetch arg = .error msg ∧
      (∃ p q, msg = p ++ vid ++ q) ∧
      (∀ l, lang = some l → ∃ p q, msg = p ++ l ++ q) := by
  refine ⟨"Error processing YouTube video: No subtitles found for video "
      ++ vid
      ++ (match lang with
          | some l => if l = "" then "" else " in language " ++ l
          | none => ""), ?_, ?_, ?_⟩
  · simp only [youtube_loader, hp, hm, ha, List.isEmpty_nil, if_true]
    cases lang <;> rfl
  · exact ⟨"Error processing YouTube video: No subtitles found for video ", _, rfl⟩
  · rintro l rfl
    by_cases hl : l = ""
    · subst hl
      refine ⟨"Error processing YouTube video: No subtitles found for video "
          ++ vid, "", ?_⟩
      simp [string_append_empty]
    · refine ⟨"Error processing YouTube video: No subtitles found for video "
          ++ vid ++ " in language ", "", ?_⟩
      simp [if_neg hl, string_append_empty, string_append_assoc]

/-- C9, witness: both fetch attempts come back empty. -/
theorem C9_witness :
    ∃ msg, youtube_loader fetchNone "es:dQw4w9WgXcQ" = .error msg ∧
      (∃ p q, msg = p ++ "dQw4w9WgXcQ" ++ q) ∧
      (∀ l, (some "es" : Option String) = some l → ∃ p q, msg = p ++ l ++ q) :=
  C9_theorem fetchNone "es:dQw4w9WgXcQ" "dQw4w9WgXcQ" (some "es")
    (by decide) rfl rfl
